import Mathlib

/-!
Verification of the sliding-window rate limiter.

The store scripts (`should-proceed.lua`, `get-remaining-requests.lua`) are
embedded as pure functions on the per-key window record, modelled as a
`List Int` of epoch timestamps in milliseconds, head = oldest.  The Lua
loop `while true do ... LINDEX 0 / LPOP ... end` becomes structural
recursion on that list; `LLEN` is `List.length`; `RPUSH` appends at the
tail.  The Express middleware is embedded over a small model of the
JavaScript values it manipulates, including un-awaited Promise objects,
because the source calls the async limiter methods without `await`.
-/

namespace RateLimiter

/-- Prune loop of `should-proceed.lua` (lines 15-27): repeatedly inspect the
head of the list; while a head exists and `now - head > window`, pop it;
stop at the first in-window head or when the list is empty. -/
def pruneShouldProceed (now window : Int) : List Int → List Int
  | [] => []
  | t :: ts => if now - t > window then pruneShouldProceed now window ts else t :: ts

/-- Prune loop of `get-remaining-requests.lua` (lines 14-25), translated
separately from its own script text: same head-inspection loop. -/
def pruneGetRemaining (now window : Int) : List Int → List Int
  | [] => []
  | t :: ts => if now - t > window then pruneGetRemaining now window ts else t :: ts

/-- `should-proceed.lua` after the prune loop: `currentSize = LLEN key`;
if `currentSize < limit` then `RPUSH key now; return 1` else `return 0`.
Result is the script's integer reply paired with the stored list it
leaves behind. -/
def shouldProceedScript (now window limit : Int) (seq : List Int) : Int × List Int :=
  let p := pruneShouldProceed now window seq
  if (p.length : Int) < limit then (1, p ++ [now]) else (0, p)

/-- `get-remaining-requests.lua` after the prune loop:
`currentSize = LLEN key; remaining = math.max(limit - currentSize, 0)`.
Result is the script's integer reply paired with the stored list it
leaves behind (the prune is its only mutation). -/
def getRemainingScript (now window limit : Int) (seq : List Int) : Int × List Int :=
  let p := pruneGetRemaining now window seq
  (max (limit - (p.length : Int)) 0, p)

/-- Iterated admission: run `should-proceed.lua` once per caller-supplied
`now`, threading the stored list, starting from `seq`.  Returns the final
stored list and the timestamps of the admitted calls, in call order. -/
def runAdmits (window limit : Int) (seq : List Int) : List Int → List Int × List Int
  | [] => (seq, [])
  | now :: rest =>
    let r := shouldProceedScript now window limit seq
    let k := runAdmits window limit r.2 rest
    (k.1, if r.1 = 1 then now :: k.2 else k.2)

/-- Number of timestamps of `l` inside the closed interval
`[a, a + window]`. -/
def countWithin (window : Int) (l : List Int) (a : Int) : Nat :=
  (l.filter fun t => decide (a ≤ t ∧ t ≤ a + window)).length

/- ### Basic prune lemmas -/

theorem pruneShouldProceed_decomp (now window : Int) (l : List Int) :
    ∃ D, l = D ++ pruneShouldProceed now window l ∧ ∀ t ∈ D, now - t > window := by
  induction l with
  | nil => exact ⟨[], rfl, by simp⟩
  | cons t ts ih =>
    by_cases h : now - t > window
    · obtain ⟨D, hD, hall⟩ := ih
      refine ⟨t :: D, ?_, ?_⟩
      · simp [pruneShouldProceed, h]
        exact hD
      · intro x hx
        rcases List.mem_cons.1 hx with hx | hx
        · exact hx ▸ h
        · exact hall x hx
    · exact ⟨[], by simp [pruneShouldProceed, h], by simp⟩

theorem pruneShouldProceed_suffix (now window : Int) (l : List Int) :
    pruneShouldProceed now window l <:+ l := by
  obtain ⟨D, hD, _⟩ := pruneShouldProceed_decomp now window l
  exact ⟨D, hD.symm⟩

theorem pruneShouldProceed_length_le (now window : Int) (l : List Int) :
    (pruneShouldProceed now window l).length ≤ l.length :=
  (pruneShouldProceed_suffix now window l).length_le

theorem pruneGetRemaining_eq (now window : Int) (l : List Int) :
    pruneGetRemaining now window l = pruneShouldProceed now window l := by
  induction l with
  | nil => rfl
  | cons t ts ih =>
    by_cases h : now - t > window
    · simp [pruneGetRemaining, pruneShouldProceed, h, ih]
    · simp [pruneGetRemaining, pruneShouldProceed, h]

/- ### Claim theorems: scripts in isolation -/

/-- Claim C1: the admit script first prunes expired head entries; with
`currentSize` the pruned length, if `currentSize < limit` it appends `now`
at the tail and replies 1 (admitted), otherwise it replies 0 and leaves
the list exactly as pruned. -/
theorem shouldProceed_admit_spec (now window limit : Int) (seq : List Int)
    (_hlim : 0 < limit) :
    (((pruneShouldProceed now window seq).length : Int) < limit →
      shouldProceedScript now window limit seq =
        (1, pruneShouldProceed now window seq ++ [now])) ∧
    (¬ ((pruneShouldProceed now window seq).length : Int) < limit →
      shouldProceedScript now window limit seq =
        (0, pruneShouldProceed now window seq)) := by
  constructor <;> intro h <;> simp [shouldProceedScript, h]

/-- Witness for C1 at a concrete input: with `now = 20`, `window = 10`,
`limit = 2` and stored `[5, 15]`, the entry 5 is pruned, `currentSize = 1 < 2`,
so the call is admitted and 20 is appended. -/
theorem shouldProceed_admit_spec_witness :
    shouldProceedScript 20 10 2 [5, 15] = (1, [15, 20]) := by
  have h := (shouldProceed_admit_spec 20 10 2 [5, 15] (by decide)).1 (by decide)
  simpa using h

/-- Claim C4: the remaining script returns `max (limit - currentSize) 0`
where `currentSize` is the pruned length; the result is non-negative, and
the stored list it leaves behind is the pruned list, a suffix of the input
(it never appends an entry). -/
theorem getRemaining_spec (now window limit : Int) (seq : List Int) :
    (getRemainingScript now window limit seq).1 =
      max (limit - ((pruneGetRemaining now window seq).length : Int)) 0 ∧
    0 ≤ (getRemainingScript now window limit seq).1 ∧
    (getRemainingScript now window limit seq).2 = pruneGetRemaining now window seq ∧
    (getRemainingScript now window limit seq).2 <:+ seq := by
  refine ⟨rfl, le_max_right _ _, rfl, ?_⟩
  show pruneGetRemaining now window seq <:+ seq
  rw [pruneGetRemaining_eq]
  exact pruneShouldProceed_suffix now window seq

/-- Claim C5: in both the admit and the remaining paths the oldest entry
`t` is pruned exactly when `now - t` strictly exceeds the window; an entry
whose age equals the window exactly is kept, and it still counts toward
`currentSize` (the remaining script subtracts it from the limit). -/
theorem prune_boundary_spec (now window limit t : Int) (ts : List Int) :
    (now - t > window →
      pruneShouldProceed now window (t :: ts) = pruneShouldProceed now window ts ∧
      pruneGetRemaining now window (t :: ts) = pruneGetRemaining now window ts) ∧
    (now - t ≤ window →
      pruneShouldProceed now window (t :: ts) = t :: ts ∧
      pruneGetRemaining now window (t :: ts) = t :: ts) ∧
    (now - t = window →
      (shouldProceedScript now window limit (t :: ts)).2.length =
        (if (ts.length + 1 : Int) < limit then ts.length + 2 else ts.length + 1) ∧
      (getRemainingScript now window limit (t :: ts)).1 =
        max (limit - (ts.length + 1 : Int)) 0) := by
  refine ⟨?_, ?_, ?_⟩
  · intro h
    constructor <;> simp [pruneShouldProceed, pruneGetRemaining, h]
  · intro h
    constructor <;> simp [pruneShouldProceed, pruneGetRemaining, not_lt.2 h]
  · intro h
    have hk : ¬ now - t > window := by omega
    have h1 : pruneShouldProceed now window (t :: ts) = t :: ts := by
      simp [pruneShouldProceed, hk]
    have h2 : pruneGetRemaining now window (t :: ts) = t :: ts := by
      simp [pruneGetRemaining, hk]
    constructor
    · have hs : shouldProceedScript now window limit (t :: ts) =
          if ((t :: ts).length : Int) < limit then (1, (t :: ts) ++ [now])
          else (0, t :: ts) := by
        simp [shouldProceedScript, h1]
      rw [hs]
      by_cases hc : ((t :: ts).length : Int) < limit
      · simp only [List.length_cons] at hc
        rw [if_pos (by simpa using hc), if_pos (by omega)]
        simp
      · simp only [List.length_cons] at hc
        rw [if_neg (by simpa using hc), if_neg (by omega)]
        simp
    · simp only [getRemainingScript, h2, List.length_cons]
      omega

/-- Witness for C5 at a concrete input: with `now = 10`, `window = 10` and
stored `[0]`, the head has age exactly the window, is kept, and the
remaining script reports `limit - 1 = 2`. -/
theorem prune_boundary_spec_witness :
    pruneShouldProceed 10 10 [0] = [0] ∧
    (getRemainingScript 10 10 3 [0]).1 = max (3 - (1 : Int)) 0 := by
  refine ⟨((prune_boundary_spec 10 10 3 0 []).2.1 (by decide)).1, ?_⟩
  have h := ((prune_boundary_spec 10 10 3 0 []).2.2 (by decide)).2
  simpa using h

/-- Claim C6: the prune step of the admit script and the prune step of the
remaining script compute the same function on every input. -/
theorem prune_steps_equivalent (now window : Int) (seq : List Int) :
    pruneShouldProceed now window seq = pruneGetRemaining now window seq :=
  (pruneGetRemaining_eq now window seq).symm

/-- Claim C10: the head-pruning loop of both scripts terminates — it is a
total function whose result is a suffix of the input, and on a non-empty
list each iteration either stops (in-window head, list unchanged) or
removes the head, strictly decreasing the length. -/
theorem prune_terminates (now window : Int) (l : List Int) :
    (pruneShouldProceed now window l <:+ l) ∧
    (pruneGetRemaining now window l <:+ l) ∧
    (∀ t ts, l = t :: ts →
      (pruneShouldProceed now window l = l ∨
        (pruneShouldProceed now window l = pruneShouldProceed now window ts ∧
          (pruneShouldProceed now window l).length < l.length))) := by
  refine ⟨pruneShouldProceed_suffix now window l, ?_, ?_⟩
  · rw [pruneGetRemaining_eq]
    exact pruneShouldProceed_suffix now window l
  · rintro t ts rfl
    by_cases h : now - t > window
    · refine Or.inr ⟨by simp [pruneShouldProceed, h], ?_⟩
      simp only [pruneShouldProceed, if_pos h]
      calc (pruneShouldProceed now window ts).length
          ≤ ts.length := pruneShouldProceed_length_le now window ts
        _ < (t :: ts).length := by simp
    · exact Or.inl (by simp [pruneShouldProceed, h])

/-- Witness for C10 at a concrete input: on `[0, 7]` with `now = 20`,
`window = 10`, the loop removes the head and strictly shrinks the list. -/
theorem prune_terminates_witness :
    pruneShouldProceed 20 10 [0, 7] <:+ [0, 7] ∧
    (pruneShouldProceed 20 10 [0, 7]).length < 2 := by
  refine ⟨(prune_terminates 20 10 [0, 7]).1, ?_⟩
  rcases (prune_terminates 20 10 [0, 7]).2.2 0 [7] rfl with h | h
  · exact absurd h (by decide)
  · simpa using h.2

/- ### The sliding-window quota invariant (claim C2) -/

theorem countWithin_append (window : Int) (l₁ l₂ : List Int) (a : Int) :
    countWithin window (l₁ ++ l₂) a = countWithin window l₁ a + countWithin window l₂ a := by
  simp [countWithin, List.filter_append]

theorem countWithin_le_length (window : Int) (l : List Int) (a : Int) :
    countWithin window l a ≤ l.length :=
  List.length_filter_le _ _

theorem countWithin_eq_zero (window : Int) (l : List Int) (a : Int)
    (h : ∀ t ∈ l, ¬ (a ≤ t ∧ t ≤ a + window)) :
    countWithin window l a = 0 := by
  rw [countWithin, List.length_eq_zero, List.filter_eq_nil_iff]
  intro t ht
  simpa using h t ht

theorem countWithin_singleton_le (window now a : Int) :
    countWithin window [now] a ≤ 1 :=
  countWithin_le_length window [now] a

theorem pruneShouldProceed_append_expired (now window : Int) (D l : List Int)
    (h : ∀ t ∈ D, now - t > window) :
    pruneShouldProceed now window (D ++ l) = pruneShouldProceed now window l := by
  induction D with
  | nil => rfl
  | cons d ds ih =>
    have hd : now - d > window := h d (by simp)
    simp only [List.cons_append, pruneShouldProceed, if_pos hd]
    exact ih fun t ht => h t (by simp [ht])

theorem pruneShouldProceed_idem (now window : Int) (l : List Int) :
    pruneShouldProceed now window (pruneShouldProceed now window l) =
      pruneShouldProceed now window l := by
  induction l with
  | nil => rfl
  | cons t ts ih =>
    by_cases h : now - t > window
    · simp [pruneShouldProceed, h, ih]
    · simp [pruneShouldProceed, h]

/-- Inductive invariant behind claim C2.  `A` is the full history of
admitted timestamps so far, split as an expired prefix `D` (every element
strictly older than the window relative to the last call time `m`)
followed by the currently stored list `S`.  If every interval of length
`window` holds at most `limit` elements of `A`, and `S` holds at most
`limit` elements, both facts persist through any further nondecreasing
calls. -/
theorem runAdmits_invariant (window limit : Int) (nows : List Int) :
    ∀ (S D : List Int) (m : Int),
      List.Chain (· ≤ ·) m nows →
      (∀ t ∈ D, m - t > window) →
      (∀ a : Int, ((countWithin window (D ++ S) a : Int) ≤ limit)) →
      ((S.length : Int) ≤ limit) →
      (∀ a : Int,
        ((countWithin window ((D ++ S) ++ (runAdmits window limit S nows).2) a : Int) ≤ limit)) ∧
      (((runAdmits window limit S nows).1.length : Int) ≤ limit) := by
  induction nows with
  | nil =>
    intro S D m _ _ hcount hlen
    exact ⟨by simpa [runAdmits] using hcount, by simpa [runAdmits] using hlen⟩
  | cons now rest ih =>
    intro S D m hchain hD hcount hlen
    have hmn : m ≤ now := (List.chain_cons.1 hchain).1
    have hrest : List.Chain (· ≤ ·) now rest := (List.chain_cons.1 hchain).2
    obtain ⟨D2, hS, hD2⟩ := pruneShouldProceed_decomp now window S
    have hD' : ∀ t ∈ D ++ D2, now - t > window := by
      intro t ht
      rcases List.mem_append.1 ht with ht | ht
      · have := hD t ht; omega
      · exact hD2 t ht
    by_cases hadm : ((pruneShouldProceed now window S).length : Int) < limit
    · -- admitted: the script replies 1 and stores the pruned list plus `now`
      have hrun : runAdmits window limit S (now :: rest) =
          ((runAdmits window limit (pruneShouldProceed now window S ++ [now]) rest).1,
            now :: (runAdmits window limit (pruneShouldProceed now window S ++ [now]) rest).2) := by
        simp [runAdmits, shouldProceedScript, hadm]
      have hcount' : ∀ a : Int,
          ((countWithin window ((D ++ D2) ++ (pruneShouldProceed now window S ++ [now])) a : Int)
            ≤ limit) := by
        intro a
        by_cases hin : a ≤ now ∧ now ≤ a + window
        · have hz : countWithin window (D ++ D2) a = 0 := by
            apply countWithin_eq_zero
            intro t ht hmem
            have := hD' t ht
            omega
          rw [countWithin_append, hz, countWithin_append]
          have h1 := countWithin_le_length window (pruneShouldProceed now window S) a
          have h2 := countWithin_singleton_le window now a
          push_cast
          omega
        · have hnow : countWithin window [now] a = 0 := by
            apply countWithin_eq_zero
            intro t ht hmem
            simp at ht
            exact hin (ht ▸ hmem)
          have hrewrite : (D ++ D2) ++ (pruneShouldProceed now window S ++ [now]) =
              (D ++ (D2 ++ pruneShouldProceed now window S)) ++ [now] := by
            simp
          rw [hrewrite, countWithin_append, hnow, ← hS]
          have := hcount a
          push_cast at this ⊢
          omega
      have hstep := ih (pruneShouldProceed now window S ++ [now]) (D ++ D2) now hrest hD'
        hcount' (by simp; omega)
      rw [hrun]
      constructor
      · intro a
        have := hstep.1 a
        have hre : ((D ++ D2) ++ (pruneShouldProceed now window S ++ [now])) ++
            (runAdmits window limit (pruneShouldProceed now window S ++ [now]) rest).2 =
            (D ++ S) ++
              (now :: (runAdmits window limit (pruneShouldProceed now window S ++ [now]) rest).2) := by
          rw [hS]; simp
          rw [pruneShouldProceed_append_expired now window D2 _ hD2]
          exact pruneShouldProceed_idem now window S
        rw [hre] at this
        exact this
      · exact hstep.2
    · -- rejected: the script replies 0 and stores only the pruned list
      have hrun : runAdmits window limit S (now :: rest) =
          ((runAdmits window limit (pruneShouldProceed now window S) rest).1,
            (runAdmits window limit (pruneShouldProceed now window S) rest).2) := by
        simp [runAdmits, shouldProceedScript, hadm]
      have hlen' : ((pruneShouldProceed now window S).length : Int) ≤ limit := by
        have := pruneShouldProceed_length_le now window S
        omega
      have hcount' : ∀ a : Int,
          ((countWithin window ((D ++ D2) ++ pruneShouldProceed now window S) a : Int)
            ≤ limit) := by
        intro a
        have hre : (D ++ D2) ++ pruneShouldProceed now window S = D ++ S := by
          rw [hS]; simp
          rw [pruneShouldProceed_append_expired now window D2 _ hD2]
          exact pruneShouldProceed_idem now window S
        rw [hre]
        exact hcount a
      have hstep := ih (pruneShouldProceed now window S) (D ++ D2) now hrest hD'
        hcount' hlen'
      rw [hrun]
      constructor
      · intro a
        have := hstep.1 a
        have hre : ((D ++ D2) ++ pruneShouldProceed now window S) ++
            (runAdmits window limit (pruneShouldProceed now window S) rest).2 =
            (D ++ S) ++ (runAdmits window limit (pruneShouldProceed now window S) rest).2 := by
          rw [hS]; simp
          rw [pruneShouldProceed_append_expired now window D2 _ hD2]
          exact pruneShouldProceed_idem now window S
        rw [hre] at this
        exact this
      · exact hstep.2

/-- Claim C2: starting from an empty record, for every nondecreasing
sequence of call times, at most `limit` admitted timestamps lie within any
single closed interval of length `window`; when the pruned length equals
`limit` the call is rejected (script reply 0); and the stored list never
holds more than `limit` entries. -/
theorem sliding_window_respects_limit (window limit : Int) (hlim : 0 < limit)
    (nows : List Int) (hmono : nows.Chain' (· ≤ ·)) :
    (∀ a : Int, ((countWithin window (runAdmits window limit [] nows).2 a : Int) ≤ limit)) ∧
    (((runAdmits window limit [] nows).1.length : Int) ≤ limit) ∧
    (∀ now seq, ((pruneShouldProceed now window seq).length : Int) = limit →
      (shouldProceedScript now window limit seq).1 = 0) := by
  have hthird : ∀ now seq, ((pruneShouldProceed now window seq).length : Int) = limit →
      (shouldProceedScript now window limit seq).1 = 0 := by
    intro now seq h
    have hnl : ¬ ((pruneShouldProceed now window seq).length : Int) < limit := by omega
    simp [shouldProceedScript, hnl]
  cases nows with
  | nil =>
    refine ⟨?_, ?_, hthird⟩
    · intro a
      simp [runAdmits, countWithin]
      omega
    · simp [runAdmits]
      omega
  | cons n rest =>
    have hchain : List.Chain (· ≤ ·) n (n :: rest) :=
      List.Chain.cons (le_refl n) hmono
    have h := runAdmits_invariant window limit (n :: rest) [] [] n hchain
      (by simp)
      (by intro a; simp [countWithin]; omega)
      (by simp; omega)
    refine ⟨?_, h.2, hthird⟩
    intro a
    have := h.1 a
    simpa using this

/-- Witness for C2 at a concrete input: with `window = 10`, `limit = 2`
and calls at times 0, 1, 2, 3, the final stored list holds at most 2
entries and at most 2 timestamps were admitted in the interval `[0, 10]`. -/
theorem sliding_window_respects_limit_witness :
    (0 : Int) < 2 ∧ ([0, 1, 2, 3] : List Int).Chain' (· ≤ ·) ∧
    ((countWithin 10 (runAdmits 10 2 [] [0, 1, 2, 3]).2 0 : Int) ≤ 2) ∧
    (((runAdmits 10 2 [] [0, 1, 2, 3]).1.length : Int) ≤ 2) := by
  have h := sliding_window_respects_limit 10 2 (by decide) [0, 1, 2, 3]
    (by norm_num [List.chain'_cons])
  exact ⟨by decide, by norm_num [List.chain'_cons], h.1 0, h.2.1⟩

/- ### Middleware embedding (`src/middlewares/rate-limiter.ts`)

The middleware calls `limiter.shouldProceed(rateLimitKey)` and
`limiter.getRemainingRequestsQuota(rateLimitKey)` WITHOUT `await`, although
both are declared `Promise<boolean>` / `Promise<number>` in the
`IRateLimiter` interface.  The values the middleware actually manipulates
are therefore un-awaited Promise objects, which we model explicitly. -/

/-- A JavaScript value as the middleware sees it: either a plain value
(what `await` would have yielded) or a still-pending Promise object that
would resolve to that value. -/
inductive JsValue (α : Type) where
  | plain (a : α)
  | promiseOf (a : α)
deriving DecidableEq

/-- JavaScript truthiness of a boolean-ish value: a plain boolean is its
own truth value; any Promise object is truthy. -/
def JsValue.truthy : JsValue Bool → Bool
  | .plain b => b
  | .promiseOf _ => true

/-- JavaScript `.toString()`: a plain value stringifies itself; a Promise
object stringifies to "[object Promise]". -/
def JsValue.jsToString (f : α → String) : JsValue α → String
  | .plain a => f a
  | .promiseOf _ => "[object Promise]"

/-- Observable outcome of one middleware invocation. -/
structure HttpOutcome where
  headers : List (String × String)
  status : Option Nat
  body : Option String
  calledNext : Bool
deriving DecidableEq

/-- Body of `rateLimiter` (src/middlewares/rate-limiter.ts lines 54-64)
after the limiter calls: sets the two headers, then
`if (!isAllowed) return res.status(429).json(message)` else `next()`. -/
def rateLimiterRespond (isAllowed : JsValue Bool) (remainingRequests : JsValue Int)
    (rateLimit : Int) : HttpOutcome :=
  { headers := [("X-RateLimit-Limit", toString rateLimit),
                ("X-RateLimit-Remaining", remainingRequests.jsToString toString)],
    status := if !isAllowed.truthy then some 429 else none,
    body := if !isAllowed.truthy then some "Too many requests, please try again later."
            else none,
    calledNext := !(!isAllowed.truthy) }

/-- One handled request as the source executes it: `shouldProceed` and
`getRemainingRequestsQuota` are invoked without `await`, so the middleware
receives the pending Promise objects, not the decision and the quota. -/
def handleRequest (admitDecision : Bool) (remainingValue : Int)
    (rateLimit : Int) : HttpOutcome :=
  rateLimiterRespond (.promiseOf admitDecision) (.promiseOf remainingValue) rateLimit

/-- Claim C3 (code bug): because `shouldProceed`'s Promise is not awaited,
`!isAllowed` is always false; even when the admission check resolves to
`false` the middleware calls `next()` and never sends the 429 response. -/
theorem middleware_ignores_rejection :
    (handleRequest false 0 10).calledNext = true ∧
    (handleRequest false 0 10).status = none ∧
    (handleRequest false 0 10).body = none := by
  refine ⟨rfl, rfl, rfl⟩

/-- Claim C8 (code bug): because `getRemainingRequestsQuota`'s Promise is
not awaited, the X-RateLimit-Remaining header is the string
"[object Promise]", not a decimal rendering of the quota; only the
X-RateLimit-Limit header is the configured limit in decimal. -/
theorem middleware_remaining_header_is_promise :
    (handleRequest true 7 10).headers =
      [("X-RateLimit-Limit", "10"), ("X-RateLimit-Remaining", "[object Promise]")] := by
  rfl

/- ### Degraded-mode facade -/

/-- Result of attempting the atomic store operation: either the store
executed it and returned a value, or the store was unreachable / the
operation failed. -/
inductive StoreAttempt (α : Type) where
  | ok (a : α)
  | storeDown (err : String)

/-- Modelled from the spec: the `SlidingWindowRateLimiter` facade class
(`src/classes/sliding-window-rate-limiter.ts`, imported by the middleware)
is not among the sources; per the spec's §4.4, `shouldProceed` checks the
store first and, when it is down or the atomic operation fails, decides
from `allowIfStoreDown` (admit all if true, reject all if false, default
false) instead of propagating the error. -/
def shouldProceedFacade (allowIfStoreDown : Bool) (attempt : StoreAttempt Bool) : Bool :=
  match attempt with
  | .ok b => b
  | .storeDown _ => allowIfStoreDown

/-- Modelled from the spec: `getRemainingRequestsQuota` of the missing
facade class; when the store is down it reports the full configured limit
if `allowIfStoreDown` is true, and 0 (the quota-breach value) otherwise. -/
def remainingFacade (allowIfStoreDown : Bool) (limit : Int)
    (attempt : StoreAttempt Int) : Int :=
  match attempt with
  | .ok n => n
  | .storeDown _ => if allowIfStoreDown then limit else 0

/-- Claim C7: when the store is unreachable the degraded-mode policy alone
decides the outcome: with `allowIfStoreDown = true` every request is
admitted and `remaining` reports the full configured limit; with the
default `false` every request is rejected; and `shouldProceed` always
yields a boolean decision, never a propagated error. -/
theorem degraded_mode_policy (err : String) (limit : Int) :
    (shouldProceedFacade true (.storeDown err) = true) ∧
    (remainingFacade true limit (.storeDown err) = limit) ∧
    (shouldProceedFacade false (.storeDown err) = false) ∧
    (∀ (allow : Bool) (attempt : StoreAttempt Bool),
      shouldProceedFacade allow attempt = true ∨
      shouldProceedFacade allow attempt = false) := by
  refine ⟨rfl, by simp [remainingFacade], rfl, ?_⟩
  intro allow attempt
  cases shouldProceedFacade allow attempt
  · exact Or.inr rfl
  · exact Or.inl rfl

end RateLimiter
